import Mathlib

/-!
Shallow embedding of `open_lm/train.py`: the metric accumulator
`AverageMeter`, the step executor and epoch driver of `train_one_epoch`,
and the evaluation driver `evaluate`.

Modelling conventions: Python floats are modelled by rationals; a Python
exception (`ZeroDivisionError` in `AverageMeter.update`, the
`AssertionError` of the gradient-accumulation branch) is modelled by
`none`, respectively by an `ok = false` flag carrying the state reached
when the exception fires.  The model, the loss function and the external
collaborators (dataloader, optimizer, scaler, sinks) are abstracted:
the per-batch loss is an oracle from the inputs and targets actually
passed to the forward pass, and the side effects of the step executor
are recorded as an explicit event trace.
-/

namespace OpenLM

/-- The `AverageMeter` class of `train.py`, fields in source order:
`val`, `avg`, `sum`, `count`. -/
structure AverageMeter where
  val : ℚ
  avg : ℚ
  sum : ℚ
  count : ℚ
deriving Repr, DecidableEq

/-- The `reset` method: zeroes `val`, `avg`, `sum`, `count`. -/
def AverageMeter.reset (_m : AverageMeter) : AverageMeter := ⟨0, 0, 0, 0⟩

/-- A freshly constructed meter: `__init__` calls `reset`. -/
def meterInit : AverageMeter := ⟨0, 0, 0, 0⟩

/-- The `update(val, n)` method: sets `val`, adds `val * n` to `sum`,
adds `n` to `count`, then recomputes `avg = sum / count`.  In Python the
final division raises `ZeroDivisionError` when the new count is zero;
this is modelled by `none`. -/
def AverageMeter.update (m : AverageMeter) (v n : ℚ) : Option AverageMeter :=
  let s := m.sum + v * n
  let c := m.count + n
  if c = 0 then none else some ⟨v, s / c, s, c⟩

lemma AverageMeter.update_of_eq (m : AverageMeter) (v n : ℚ) (h : m.count + n = 0) :
    m.update v n = none := by
  rw [AverageMeter.update]
  show (if m.count + n = 0 then none
    else some (⟨v, (m.sum + v * n) / (m.count + n), m.sum + v * n,
      m.count + n⟩ : AverageMeter)) = _
  exact if_pos h

lemma AverageMeter.update_of_ne (m : AverageMeter) (v n : ℚ) (h : m.count + n ≠ 0) :
    m.update v n =
      some ⟨v, (m.sum + v * n) / (m.count + n), m.sum + v * n, m.count + n⟩ := by
  rw [AverageMeter.update]
  show (if m.count + n = 0 then none
    else some (⟨v, (m.sum + v * n) / (m.count + n), m.sum + v * n,
      m.count + n⟩ : AverageMeter)) = _
  exact if_neg h

lemma AverageMeter.update_some_fields (m : AverageMeter) (v n : ℚ) (m' : AverageMeter)
    (h : m.update v n = some m') :
    m'.val = v ∧ m'.sum = m.sum + v * n ∧ m'.count = m.count + n := by
  by_cases hc : m.count + n = 0
  · rw [AverageMeter.update_of_eq m v n hc] at h
    exact Option.noConfusion h
  · rw [AverageMeter.update_of_ne m v n hc] at h
    injection h with h
    subst h
    exact ⟨rfl, rfl, rfl⟩

/-- A sequence of `update` calls, aborting at the first raised exception. -/
def AverageMeter.updates : AverageMeter → List (ℚ × ℚ) → Option AverageMeter
  | m, [] => some m
  | m, (v, n) :: rest =>
    match m.update v n with
    | none => none
    | some m' => m'.updates rest

/-- Total weight of a sequence of `(value, weight)` update arguments. -/
def weightSum (l : List (ℚ × ℚ)) : ℚ := (l.map Prod.snd).sum

/-- Weighted value sum of a sequence of `(value, weight)` update arguments. -/
def weightedSum (l : List (ℚ × ℚ)) : ℚ := (l.map fun p => p.1 * p.2).sum

/-- The value of the last update of a sequence, with default `d`. -/
def lastVal (d : ℚ) (l : List (ℚ × ℚ)) : ℚ := l.foldl (fun _ p => p.1) d

lemma weightSum_cons (p : ℚ × ℚ) (l : List (ℚ × ℚ)) :
    weightSum (p :: l) = p.2 + weightSum l := by
  simp [weightSum]

lemma weightedSum_cons (p : ℚ × ℚ) (l : List (ℚ × ℚ)) :
    weightedSum (p :: l) = p.1 * p.2 + weightedSum l := by
  simp [weightedSum]

lemma lastVal_eq_getLast :
    ∀ (l : List (ℚ × ℚ)) (d : ℚ) (h : l ≠ []), lastVal d l = (l.getLast h).1 := by
  intro l
  induction l with
  | nil => intro d h; exact absurd rfl h
  | cons p t ih =>
    intro d h
    cases t with
    | nil => rfl
    | cons q u =>
      have h2 : lastVal d (p :: q :: u) = lastVal p.1 (q :: u) := rfl
      rw [h2, ih p.1 (by simp)]
      exact congrArg Prod.fst (List.getLast_cons (by simp)).symm

/-- Core invariant of a run of `update` calls: if every partial count
stays nonzero, no call raises, and the final meter holds the last value,
the weighted sums, and their quotient as average. -/
lemma AverageMeter.updates_eq (l : List (ℚ × ℚ)) :
    ∀ (m : AverageMeter), l ≠ [] →
      (∀ j, 1 ≤ j → j ≤ l.length → m.count + weightSum (l.take j) ≠ 0) →
      m.updates l = some ⟨lastVal m.val l,
        (m.sum + weightedSum l) / (m.count + weightSum l),
        m.sum + weightedSum l, m.count + weightSum l⟩ := by
  induction l with
  | nil => intro m h; exact absurd rfl h
  | cons p t ih =>
    intro m _ hpre
    obtain ⟨v, n⟩ := p
    have h1 : m.count + n ≠ 0 := by
      have := hpre 1 le_rfl (by simp)
      simpa [weightSum] using this
    have hupd : m.update v n =
        some ⟨v, (m.sum + v * n) / (m.count + n), m.sum + v * n, m.count + n⟩ := by
      simp [AverageMeter.update, h1]
    cases t with
    | nil =>
      simp only [AverageMeter.updates, hupd]
      simp [lastVal, weightSum, weightedSum]
    | cons q u =>
      have step : AverageMeter.updates m ((v, n) :: q :: u) =
          AverageMeter.updates
            ⟨v, (m.sum + v * n) / (m.count + n), m.sum + v * n, m.count + n⟩ (q :: u) := by
        simp [AverageMeter.updates, hupd]
      have hpre' : ∀ j, 1 ≤ j → j ≤ (q :: u).length →
          (⟨v, (m.sum + v * n) / (m.count + n), m.sum + v * n, m.count + n⟩ :
            AverageMeter).count + weightSum ((q :: u).take j) ≠ 0 := by
        intro j hj1 hj2
        have h3 := hpre (j + 1) (by omega) (by simp only [List.length_cons] at hj2 ⊢; omega)
        have h4 : ((v, n) :: q :: u).take (j + 1) = (v, n) :: (q :: u).take j := rfl
        rw [h4, weightSum_cons] at h3
        show m.count + n + weightSum ((q :: u).take j) ≠ 0
        intro hc; apply h3; linarith
      rw [step, ih _ (by simp) hpre']
      have hw : m.count + n + weightSum (q :: u) = m.count + weightSum ((v, n) :: q :: u) := by
        simp only [weightSum_cons]; ring
      have hs : m.sum + v * n + weightedSum (q :: u) =
          m.sum + weightedSum ((v, n) :: q :: u) := by
        simp only [weightedSum_cons]; ring
      refine congrArg some ?_
      show (⟨lastVal v (q :: u),
        (m.sum + v * n + weightedSum (q :: u)) / (m.count + n + weightSum (q :: u)),
        m.sum + v * n + weightedSum (q :: u),
        m.count + n + weightSum (q :: u)⟩ : AverageMeter) = _
      rw [hw, hs]
      rfl

/-- C1 (amended).  After `reset()`, value, sum, count and average are all
zero.  After a sequence of `update(v_i, n_i)` calls in which every
partial weight sum `n_1 + ... + n_j` is nonzero (in particular whenever
every `n_i > 0`) and whose total weight is positive, the meter's current
value is `v_k`, its sum is `Σ v_i * n_i`, its count is `Σ n_i`, and its
average is their quotient.  The original claim's hypothesis
`Σ n_i > 0` alone is not enough: a zero partial sum makes `update` raise
`ZeroDivisionError` (see the counterexample). -/
theorem C1_meter_sequence :
    (∀ m : AverageMeter, m.reset = ⟨0, 0, 0, 0⟩) ∧
    ∀ (l : List (ℚ × ℚ)) (hne : l ≠ []),
      (∀ j, 1 ≤ j → j ≤ l.length → weightSum (l.take j) ≠ 0) →
      0 < weightSum l →
      meterInit.updates l = some ⟨(l.getLast hne).1,
        weightedSum l / weightSum l, weightedSum l, weightSum l⟩ := by
  constructor
  · intro m; rfl
  · intro l hne hpre _
    have h := AverageMeter.updates_eq l meterInit hne (by
      intro j hj1 hj2
      have := hpre j hj1 hj2
      simpa [meterInit] using this)
    rw [h]
    rw [lastVal_eq_getLast l meterInit.val hne]
    simp [meterInit]

/-- C1 counterexample: the update sequence `(1, 0), (1, 1)` has total
weight `1 > 0`, yet the first call already raises `ZeroDivisionError`
(modelled as `none`), so the claim as stated fails. -/
theorem C1_counterexample :
    0 < weightSum [((1 : ℚ), (0 : ℚ)), (1, 1)] ∧
    meterInit.updates [((1 : ℚ), (0 : ℚ)), (1, 1)] = none := by
  constructor
  · norm_num [weightSum]
  · norm_num [AverageMeter.updates, AverageMeter.update, meterInit]

/-- C1 witness: a concrete successful run. -/
theorem C1_witness :
    meterInit.updates [((2 : ℚ), (1 : ℚ)), (4, 3)] = some ⟨4, 7 / 2, 14, 4⟩ := by
  have h := C1_meter_sequence.2 [((2 : ℚ), (1 : ℚ)), (4, 3)] (by simp)
    (by
      intro j hj1 hj2
      simp only [List.length_cons, List.length_nil] at hj2
      interval_cases j <;> norm_num [weightSum])
    (by norm_num [weightSum])
  rw [h]
  norm_num [weightSum, weightedSum]

/-- C9 (amended).  `update` raises a division by zero exactly when the
count after the call is zero — in particular an `update` with weight 0
before any other update raises immediately inside `update`, not later.
Reading the average never divides: `avg` is a stored field, zero after
`reset` and on a fresh meter. -/
theorem C9_update_errors :
    (∀ (m : AverageMeter) (v n : ℚ), m.update v n = none ↔ m.count + n = 0) ∧
    meterInit.avg = 0 ∧ ∀ m : AverageMeter, (m.reset).avg = 0 := by
  refine ⟨?_, rfl, fun m => rfl⟩
  intro m v n
  simp only [AverageMeter.update]
  split
  · simp [*]
  · simp [*]

/-- C9 counterexample: calling `update` with weight 0 on a fresh meter
raises `ZeroDivisionError` inside `update` itself, contradicting the
claim that `update` has no error conditions. -/
theorem C9_counterexample : meterInit.update 1 0 = none := by
  norm_num [AverageMeter.update, meterInit]

/-- One recorded side effect of the step executor: a forward pass over a
number of sequences, a `backward(...)` call carrying the loss value it
was given, or one optimizer step (`scaler.step(optimizer)` or
`optimizer.step()`). -/
inductive Event where
  | forward (rows : ℕ) : Event
  | backward (lossVal : ℚ) : Event
  | optStep : Event
deriving Repr, DecidableEq

def Event.isOptStep : Event → Bool
  | Event.optStep => true
  | _ => false

def Event.isBackward : Event → Bool
  | Event.backward _ => true
  | _ => false

def Event.isForward : Event → Bool
  | Event.forward _ => true
  | _ => false

/-- The loss value carried by a `backward` event, if any. -/
def Event.backLossVal : Event → Option ℚ
  | Event.backward q => some q
  | _ => none

/-- The `inputs` slice `texts[:, :seq_len - 1]` of a batch: per row the
tokens at positions `[0, L-1)`. -/
def inputRows (seqLen : ℕ) (texts : List (List ℤ)) : List (List ℤ) :=
  texts.map fun r => r.take (seqLen - 1)

/-- The `targets` slice `texts[:, 1:seq_len]` of a batch: per row the
tokens at positions `[1, L)`. -/
def targetRows (seqLen : ℕ) (texts : List (List ℤ)) : List (List ℤ) :=
  texts.map fun r => (r.drop 1).take (seqLen - 1)

/-- The `(inputs_ii, targets_ii)` chunk pairs of the gradient-accumulation
branch: `accum_freq` contiguous slices of size `batch_size // accum_freq`,
with bounds computed from the configured batch size. -/
def chunkPairs (batchSize accumFreq seqLen : ℕ) (texts : List (List ℤ)) :
    List (List (List ℤ) × List (List ℤ)) :=
  (List.range accumFreq).map fun ii =>
    (((inputRows seqLen texts).drop (ii * (batchSize / accumFreq))).take
       (batchSize / accumFreq),
     ((targetRows seqLen texts).drop (ii * (batchSize / accumFreq))).take
       (batchSize / accumFreq))

/-- Result of one invocation of the step executor (lines 88-146 of
`train.py`): the ordered effect trace, the input chunks passed to the
forward passes, the accumulated `total_loss`, and whether the
invocation completed (`ok = false` models the `AssertionError` of the
divisibility check, raised before any forward pass). -/
structure StepResult where
  events : List Event
  chunks : List (List (List ℤ))
  totalLoss : Option ℚ
  ok : Bool
deriving Repr, DecidableEq

/-- Number of sequences of each chunk processed by a forward pass. -/
def StepResult.chunkSizes (r : StepResult) : List ℕ := r.chunks.map List.length

/-- The step executor: one optimization step of `train_one_epoch`.
With `accum_freq == 1`, one forward pass over the full batch, one
backward on the full loss, then the optimizer step.  Otherwise the
divisibility assertion runs first; if it passes, `accum_freq` chunk
slices are processed with forward + backward on `loss / accum_freq`,
the per-chunk losses are summed into `total_loss`, then the optimizer
step runs once.  The model/loss pipeline is abstracted as the oracle
`lossOf inputs targets`. -/
def train_step (batchSize accumFreq seqLen : ℕ)
    (lossOf : List (List ℤ) → List (List ℤ) → ℚ)
    (texts : List (List ℤ)) : StepResult :=
  if accumFreq = 1 then
    { events := [Event.forward (inputRows seqLen texts).length,
                 Event.backward (lossOf (inputRows seqLen texts) (targetRows seqLen texts)),
                 Event.optStep],
      chunks := [inputRows seqLen texts],
      totalLoss := some (lossOf (inputRows seqLen texts) (targetRows seqLen texts)),
      ok := true }
  else if batchSize % accumFreq = 0 then
    { events := ((chunkPairs batchSize accumFreq seqLen texts).map fun c =>
        [Event.forward c.1.length,
         Event.backward (lossOf c.1 c.2 / (accumFreq : ℚ))]).flatten
        ++ [Event.optStep],
      chunks := (chunkPairs batchSize accumFreq seqLen texts).map Prod.fst,
      totalLoss := some (((chunkPairs batchSize accumFreq seqLen texts).map fun c =>
        lossOf c.1 c.2 / (accumFreq : ℚ)).sum),
      ok := true }
  else
    { events := [], chunks := [], totalLoss := none, ok := false }

lemma train_step_accum_eq (batchSize accumFreq seqLen : ℕ)
    (lossOf : List (List ℤ) → List (List ℤ) → ℚ) (texts : List (List ℤ))
    (h1 : ¬ accumFreq = 1) (h2 : batchSize % accumFreq = 0) :
    train_step batchSize accumFreq seqLen lossOf texts =
      { events := ((chunkPairs batchSize accumFreq seqLen texts).map fun c =>
          [Event.forward c.1.length,
           Event.backward (lossOf c.1 c.2 / (accumFreq : ℚ))]).flatten
          ++ [Event.optStep],
        chunks := (chunkPairs batchSize accumFreq seqLen texts).map Prod.fst,
        totalLoss := some (((chunkPairs batchSize accumFreq seqLen texts).map fun c =>
          lossOf c.1 c.2 / (accumFreq : ℚ)).sum),
        ok := true } := by
  rw [train_step, if_neg h1, if_pos h2]

lemma train_step_fail_eq (batchSize accumFreq seqLen : ℕ)
    (lossOf : List (List ℤ) → List (List ℤ) → ℚ) (texts : List (List ℤ))
    (h1 : ¬ accumFreq = 1) (h2 : ¬ batchSize % accumFreq = 0) :
    train_step batchSize accumFreq seqLen lossOf texts =
      { events := [], chunks := [], totalLoss := none, ok := false } := by
  rw [train_step, if_neg h1, if_neg h2]

lemma chunkPairs_sizes (batchSize accumFreq seqLen : ℕ) (texts : List (List ℤ)) :
    ((chunkPairs batchSize accumFreq seqLen texts).map Prod.fst).map List.length =
      (List.range accumFreq).map fun ii =>
        min (batchSize / accumFreq) (texts.length - ii * (batchSize / accumFreq)) := by
  rw [chunkPairs, List.map_map, List.map_map]
  apply List.map_congr_left
  intro ii _
  simp [List.length_take, List.length_drop, inputRows]

lemma countP_flatten_map {α : Type} (p : Event → Bool) (f : α → List Event) (k : ℕ)
    (hc : ∀ a, (f a).countP p = k) :
    ∀ l : List α, ((l.map f).flatten).countP p = k * l.length := by
  intro l
  induction l with
  | nil => simp
  | cons a t ih =>
    rw [List.map_cons, List.flatten_cons, List.countP_append, hc, ih, List.length_cons,
      Nat.mul_succ]
    omega

lemma flatten_slices {α : Type} (per : ℕ) :
    ∀ (af : ℕ) (xs : List α), xs.length = af * per →
      ((List.range af).map fun ii => (xs.drop (ii * per)).take per).flatten = xs := by
  intro af
  induction af with
  | zero =>
    intro xs h
    simp only [Nat.zero_mul] at h
    simp [List.length_eq_zero.mp h]
  | succ af ih =>
    intro xs h
    have hlen : (xs.drop per).length = af * per := by
      rw [List.length_drop, h, Nat.succ_mul]; omega
    have hmap : (List.range af).map ((fun ii => (xs.drop (ii * per)).take per) ∘ Nat.succ) =
        (List.range af).map fun ii => ((xs.drop per).drop (ii * per)).take per := by
      apply List.map_congr_left
      intro ii _
      show (xs.drop (Nat.succ ii * per)).take per = ((xs.drop per).drop (ii * per)).take per
      rw [List.drop_drop, Nat.succ_mul, Nat.add_comm]
    rw [List.range_succ_eq_map, List.map_cons, List.flatten_cons, List.map_map, hmap,
      ih _ hlen]
    simp

lemma filterMap_backLoss (lossOf : List (List ℤ) → List (List ℤ) → ℚ) (q : ℚ)
    (l : List (List (List ℤ) × List (List ℤ))) :
    ((l.map fun c => [Event.forward c.1.length,
        Event.backward (lossOf c.1 c.2 / q)]).flatten).filterMap Event.backLossVal =
      l.map fun c => lossOf c.1 c.2 / q := by
  induction l with
  | nil => rfl
  | cons a t ih => simp [Event.backLossVal, ih]

/-- C8.  For every batch whose rows all have length `L ≥ 1`, both drivers
split it into `inputs` rows holding the tokens at positions `[0, L-1)`
and `targets` rows holding the tokens at positions `[1, L)`; every
`inputs` and `targets` row has length `L - 1`. -/
theorem C8_next_token_shift :
    ∀ (L : ℕ) (texts : List (List ℤ)), 1 ≤ L → (∀ r ∈ texts, r.length = L) →
      (∀ r ∈ inputRows L texts, r.length = L - 1) ∧
      (∀ r ∈ targetRows L texts, r.length = L - 1) ∧
      (∀ (k j : ℕ), j < L - 1 →
        ((inputRows L texts)[k]?.bind fun row => row[j]?) =
          (texts[k]?.bind fun row => row[j]?)) ∧
      (∀ (k j : ℕ), j < L - 1 →
        ((targetRows L texts)[k]?.bind fun row => row[j]?) =
          (texts[k]?.bind fun row => row[j + 1]?)) := by
  intro L texts hL hrows
  refine ⟨?_, ?_, ?_, ?_⟩
  · intro r hr
    obtain ⟨x, hx, rfl⟩ := List.mem_map.mp hr
    have hxl := hrows x hx
    rw [List.length_take, hxl]
    omega
  · intro r hr
    obtain ⟨x, hx, rfl⟩ := List.mem_map.mp hr
    have hxl := hrows x hx
    simp [List.length_take, List.length_drop, hxl]
  · intro k j hj
    rw [inputRows, List.getElem?_map]
    cases hk : texts[k]? with
    | none => rfl
    | some x =>
      simp only [Option.map_some', Option.some_bind]
      exact List.getElem?_take_of_lt hj
  · intro k j hj
    rw [targetRows, List.getElem?_map]
    cases hk : texts[k]? with
    | none => rfl
    | some x =>
      simp only [Option.map_some', Option.some_bind]
      rw [List.getElem?_take_of_lt hj, List.getElem?_drop, Nat.add_comm]

/-- C8 witness: a concrete batch with `L = 3`. -/
theorem C8_witness :
    ((targetRows 3 [[(1 : ℤ), 2, 3]])[0]?.bind fun row => row[1]?) =
      (([[(1 : ℤ), 2, 3]] : List (List ℤ))[0]?.bind fun row => row[2]?) :=
  (C8_next_token_shift 3 [[(1 : ℤ), 2, 3]] (by norm_num) (by decide)).2.2.2 0 1
    (by norm_num)

/-- C3.  Every completed invocation of the step executor performs
exactly one optimizer step; and with `batch_size = 8`,
`accum_freq = 4`, `seq_len = 16` on a batch of 8 sequences it processes
exactly 4 chunks of 2 sequences each, calls `backward` exactly 4 times
and the optimizer step exactly once. -/
theorem C3_one_optimizer_step :
    (∀ bs af L lossOf (texts : List (List ℤ)),
       (train_step bs af L lossOf texts).ok = true →
       (train_step bs af L lossOf texts).events.countP Event.isOptStep = 1) ∧
    (∀ lossOf (texts : List (List ℤ)), texts.length = 8 →
       (train_step 8 4 16 lossOf texts).chunkSizes = [2, 2, 2, 2] ∧
       (train_step 8 4 16 lossOf texts).events.countP Event.isBackward = 4 ∧
       (train_step 8 4 16 lossOf texts).events.countP Event.isOptStep = 1) := by
  constructor
  · intro bs af L lossOf texts hok
    by_cases h1 : af = 1
    · subst h1
      simp [train_step, List.countP_cons, Event.isOptStep]
    · by_cases h2 : bs % af = 0
      · rw [train_step_accum_eq bs af L lossOf texts h1 h2]
        show (_ ++ [Event.optStep]).countP Event.isOptStep = 1
        rw [List.countP_append,
          countP_flatten_map Event.isOptStep _ 0
            (fun a => by simp [Event.isOptStep, List.countP_cons])]
        simp [Event.isOptStep, List.countP_cons]
      · rw [train_step_fail_eq bs af L lossOf texts h1 h2] at hok
        exact absurd hok (by simp)
  · intro lossOf texts h
    have h1 : ¬ (4 : ℕ) = 1 := by norm_num
    have h2 : (8 : ℕ) % 4 = 0 := by norm_num
    refine ⟨?_, ?_, ?_⟩
    · rw [StepResult.chunkSizes, train_step_accum_eq 8 4 16 lossOf texts h1 h2]
      show ((chunkPairs 8 4 16 texts).map Prod.fst).map List.length = _
      rw [chunkPairs_sizes, h]
      decide
    · rw [train_step_accum_eq 8 4 16 lossOf texts h1 h2]
      show (_ ++ [Event.optStep]).countP Event.isBackward = 4
      rw [List.countP_append,
        countP_flatten_map Event.isBackward _ 1
          (fun a => by simp [Event.isBackward, List.countP_cons])]
      simp [Event.isBackward, List.countP_cons, chunkPairs]
    · rw [train_step_accum_eq 8 4 16 lossOf texts h1 h2]
      show (_ ++ [Event.optStep]).countP Event.isOptStep = 1
      rw [List.countP_append,
        countP_flatten_map Event.isOptStep _ 0
          (fun a => by simp [Event.isOptStep, List.countP_cons])]
      simp [Event.isOptStep, List.countP_cons]

/-- C3 witness: concrete invocations. -/
theorem C3_witness :
    (train_step 1 1 2 (fun _ _ => (0 : ℚ)) [[0, 0]]).events.countP Event.isOptStep = 1 ∧
    (train_step 8 4 16 (fun _ _ => (0 : ℚ))
      (List.replicate 8 (List.replicate 16 (0 : ℤ)))).chunkSizes = [2, 2, 2, 2] :=
  ⟨C3_one_optimizer_step.1 1 1 2 (fun _ _ => (0 : ℚ)) [[0, 0]] rfl,
   (C3_one_optimizer_step.2 (fun _ _ => (0 : ℚ))
     (List.replicate 8 (List.replicate 16 (0 : ℤ))) (by simp)).1⟩

/-- C4.  With `accum_freq > 1` not dividing the configured batch size,
the step executor raises the configuration assertion before any forward
pass (empty event trace, no optimizer step).  When it divides and the
actual batch has the configured number of rows, the batch is
partitioned into `accum_freq` equal contiguous chunks (their
concatenation is exactly `inputs`), each chunk's loss is divided by
`accum_freq` before being handed to `backward`, and the per-chunk
losses are accumulated into the logged `total_loss`. -/
theorem C4_divisibility :
    (∀ bs af L lossOf (texts : List (List ℤ)), 1 < af → ¬ (bs % af = 0) →
       train_step bs af L lossOf texts =
         { events := [], chunks := [], totalLoss := none, ok := false }) ∧
    (∀ bs af L lossOf (texts : List (List ℤ)), 1 < af → bs % af = 0 →
       texts.length = bs →
       (train_step bs af L lossOf texts).ok = true ∧
       (train_step bs af L lossOf texts).chunkSizes = List.replicate af (bs / af) ∧
       (train_step bs af L lossOf texts).chunks.flatten = inputRows L texts ∧
       (train_step bs af L lossOf texts).totalLoss =
         some (((chunkPairs bs af L texts).map fun c =>
           lossOf c.1 c.2 / (af : ℚ)).sum) ∧
       (train_step bs af L lossOf texts).events.filterMap Event.backLossVal =
         (chunkPairs bs af L texts).map fun c => lossOf c.1 c.2 / (af : ℚ)) := by
  constructor
  · intro bs af L lossOf texts haf h2
    exact train_step_fail_eq bs af L lossOf texts (by omega) h2
  · intro bs af L lossOf texts haf h2 hlen
    have h1 : ¬ af = 1 := by omega
    have hdvd : af ∣ bs := Nat.dvd_of_mod_eq_zero h2
    have hbs : af * (bs / af) = bs := Nat.mul_div_cancel' hdvd
    rw [train_step_accum_eq bs af L lossOf texts h1 h2]
    refine ⟨rfl, ?_, ?_, rfl, ?_⟩
    · show ((chunkPairs bs af L texts).map Prod.fst).map List.length = _
      rw [chunkPairs_sizes, hlen]
      apply List.eq_replicate_iff.mpr
      refine ⟨by simp, ?_⟩
      intro b hb
      obtain ⟨ii, hii, rfl⟩ := List.mem_map.mp hb
      rw [List.mem_range] at hii
      have hle : (ii + 1) * (bs / af) ≤ af * (bs / af) :=
        Nat.mul_le_mul_right _ (by omega)
      rw [Nat.succ_mul] at hle
      omega
    · show ((chunkPairs bs af L texts).map Prod.fst).flatten = inputRows L texts
      rw [chunkPairs, List.map_map]
      have hinp : (inputRows L texts).length = af * (bs / af) := by
        rw [inputRows, List.length_map, hlen, hbs]
      exact flatten_slices (bs / af) af (inputRows L texts) hinp
    · show ((((chunkPairs bs af L texts).map fun c =>
          [Event.forward c.1.length,
           Event.backward (lossOf c.1 c.2 / (af : ℚ))]).flatten)
          ++ [Event.optStep]).filterMap Event.backLossVal = _
      rw [List.filterMap_append, filterMap_backLoss lossOf ((af : ℚ))]
      simp [Event.backLossVal]

/-- C4 witness: a failing and a succeeding concrete configuration. -/
theorem C4_witness :
    (train_step 8 3 4 (fun _ _ => (0 : ℚ)) ([] : List (List ℤ))).ok = false ∧
    (train_step 4 2 3 (fun _ _ => (0 : ℚ))
      (List.replicate 4 (List.replicate 3 (0 : ℤ)))).chunkSizes = List.replicate 2 2 := by
  constructor
  · rw [C4_divisibility.1 8 3 4 (fun _ _ => (0 : ℚ)) [] (by norm_num) (by norm_num)]
  · exact (C4_divisibility.2 4 2 3 (fun _ _ => (0 : ℚ))
      (List.replicate 4 (List.replicate 3 (0 : ℤ)))
      (by norm_num) (by norm_num) (by simp)).2.1

/-- C10.  In the step executor, the divisibility check and the chunk
bounds are computed only from the configured `batch_size`, never from
the actual batch: the `ok` outcome does not depend on the batch or the
loss oracle, the accumulation branch always takes exactly `accum_freq`
slices whose sizes are truncated against the actual number of rows,
and an actual batch smaller than the configured batch size passes the
check and yields truncated or empty chunks (e.g. sizes `[2, 1, 0, 0]`
for 3 actual rows under `batch_size = 8`, `accum_freq = 4`). -/
theorem C10_config_only :
    (∀ bs af L lossOf lossOf2 (texts texts2 : List (List ℤ)),
       (train_step bs af L lossOf texts).ok = (train_step bs af L lossOf2 texts2).ok) ∧
    (∀ bs af L lossOf (texts : List (List ℤ)), 1 < af → bs % af = 0 →
       (train_step bs af L lossOf texts).chunks.length = af ∧
       (train_step bs af L lossOf texts).chunkSizes =
         (List.range af).map fun ii =>
           min (bs / af) (texts.length - ii * (bs / af))) ∧
    (∀ lossOf (texts : List (List ℤ)), texts.length = 3 →
       (train_step 8 4 16 lossOf texts).ok = true ∧
       (train_step 8 4 16 lossOf texts).chunkSizes = [2, 1, 0, 0]) := by
  refine ⟨?_, ?_, ?_⟩
  · intro bs af L lossOf lossOf2 texts texts2
    by_cases h1 : af = 1
    · subst h1; rw [train_step, if_pos rfl, train_step, if_pos rfl]
    · by_cases h2 : bs % af = 0
      · rw [train_step_accum_eq bs af L lossOf texts h1 h2,
          train_step_accum_eq bs af L lossOf2 texts2 h1 h2]
      · rw [train_step_fail_eq bs af L lossOf texts h1 h2,
          train_step_fail_eq bs af L lossOf2 texts2 h1 h2]
  · intro bs af L lossOf texts haf h2
    have h1 : ¬ af = 1 := by omega
    rw [train_step_accum_eq bs af L lossOf texts h1 h2]
    constructor
    · show ((chunkPairs bs af L texts).map Prod.fst).length = af
      rw [List.length_map, chunkPairs, List.length_map, List.length_range]
    · show ((chunkPairs bs af L texts).map Prod.fst).map List.length = _
      rw [chunkPairs_sizes]
  · intro lossOf texts hlen
    have h1 : ¬ (4 : ℕ) = 1 := by norm_num
    have h2 : (8 : ℕ) % 4 = 0 := by norm_num
    constructor
    · rw [train_step_accum_eq 8 4 16 lossOf texts h1 h2]
    · rw [StepResult.chunkSizes, train_step_accum_eq 8 4 16 lossOf texts h1 h2]
      show ((chunkPairs 8 4 16 texts).map Prod.fst).map List.length = _
      rw [chunkPairs_sizes, hlen]
      decide

/-- One batch of the evaluation driver `evaluate`: forward pass over the
shifted inputs, `total_loss` from the abstract model + cross-entropy
oracle, then `losses_m.update(total_loss.item(), inputs.shape[0])` —
the update weight is the number of input sequences (rows) of the
batch. -/
def evalBatch (seqLen : ℕ) (modelLoss : List (List ℤ) → List (List ℤ) → ℚ)
    (m : AverageMeter) (texts : List (List ℤ)) : Option AverageMeter :=
  m.update (modelLoss (inputRows seqLen texts) (targetRows seqLen texts))
    (((inputRows seqLen texts).length : ℕ) : ℚ)

/-- The evaluation loop over the validation stream, one full pass. -/
def runEval (seqLen : ℕ) (modelLoss : List (List ℤ) → List (List ℤ) → ℚ) :
    AverageMeter → List (List (List ℤ)) → Option AverageMeter
  | m, [] => some m
  | m, b :: rest =>
    match evalBatch seqLen modelLoss m b with
    | none => none
    | some m' => runEval seqLen modelLoss m' rest

/-- The loss accumulator `losses_m` produced by one full evaluation
pass; the reported perplexity is `exp` of its average. -/
def evaluate (seqLen : ℕ) (modelLoss : List (List ℤ) → List (List ℤ) → ℚ)
    (batches : List (List (List ℤ))) : Option AverageMeter :=
  runEval seqLen modelLoss meterInit batches

/-- Modelled from the spec: the spec's sentence "accumulate into a loss
accumulator weighted by the number of input tokens in that batch" — the
update weight here is the total number of tokens of `inputs`, not its
number of rows.  This definition exists only to compare the spec's
wording against `evalBatch`, which follows the code. -/
def evalBatchSpecTokens (seqLen : ℕ) (modelLoss : List (List ℤ) → List (List ℤ) → ℚ)
    (m : AverageMeter) (texts : List (List ℤ)) : Option AverageMeter :=
  m.update (modelLoss (inputRows seqLen texts) (targetRows seqLen texts))
    (((((inputRows seqLen texts).map List.length).sum : ℕ) : ℚ))

/-- Modelled from the spec: evaluation loop accumulating with the
token-count weight of `evalBatchSpecTokens`. -/
def runEvalSpecTokens (seqLen : ℕ) (modelLoss : List (List ℤ) → List (List ℤ) → ℚ) :
    AverageMeter → List (List (List ℤ)) → Option AverageMeter
  | m, [] => some m
  | m, b :: rest =>
    match evalBatchSpecTokens seqLen modelLoss m b with
    | none => none
    | some m' => runEvalSpecTokens seqLen modelLoss m' rest

/-- Modelled from the spec: full evaluation pass with token-count
weights. -/
def evaluateSpecTokens (seqLen : ℕ) (modelLoss : List (List ℤ) → List (List ℤ) → ℚ)
    (batches : List (List (List ℤ))) : Option AverageMeter :=
  runEvalSpecTokens seqLen modelLoss meterInit batches

lemma runEval_invariant (seqLen : ℕ)
    (modelLoss : List (List ℤ) → List (List ℤ) → ℚ) (c : ℚ) :
    ∀ (bs : List (List (List ℤ))) (m : AverageMeter),
      (∀ b ∈ bs, b ≠ []) →
      (∀ b ∈ bs, modelLoss (inputRows seqLen b) (targetRows seqLen b) = c) →
      0 ≤ m.count → m.sum = c * m.count → (0 < m.count → m.avg = c) →
      ∃ m', runEval seqLen modelLoss m bs = some m' ∧
        m'.count = m.count + (((bs.map List.length).sum : ℕ) : ℚ) ∧
        m'.sum = c * m'.count ∧ 0 ≤ m'.count ∧ (0 < m'.count → m'.avg = c) := by
  intro bs
  induction bs with
  | nil =>
    intro m _ _ h0 hsum havg
    refine ⟨m, rfl, by simp, hsum, h0, havg⟩
  | cons b t ih =>
    intro m hne hloss h0 hsum havg
    have hb : b ≠ [] := hne b (List.mem_cons_self b t)
    have hblen : 0 < b.length := List.length_pos.mpr hb
    have hn : (0 : ℚ) < ((b.length : ℕ) : ℚ) := by exact_mod_cast hblen
    have hc0 : 0 < m.count + ((b.length : ℕ) : ℚ) := by linarith
    have hinp : (((inputRows seqLen b).length : ℕ) : ℚ) = ((b.length : ℕ) : ℚ) := by
      rw [inputRows, List.length_map]
    have hupd : evalBatch seqLen modelLoss m b =
        some ⟨c, (m.sum + c * ((b.length : ℕ) : ℚ)) / (m.count + ((b.length : ℕ) : ℚ)),
          m.sum + c * ((b.length : ℕ) : ℚ), m.count + ((b.length : ℕ) : ℚ)⟩ := by
      rw [evalBatch, hloss b (List.mem_cons_self b t), hinp,
        AverageMeter.update_of_ne m c ((b.length : ℕ) : ℚ) (by linarith)]
    have hm1sum : m.sum + c * ((b.length : ℕ) : ℚ) =
        c * (m.count + ((b.length : ℕ) : ℚ)) := by rw [hsum]; ring
    have hm1avg : (m.sum + c * ((b.length : ℕ) : ℚ)) /
        (m.count + ((b.length : ℕ) : ℚ)) = c := by
      rw [hm1sum]
      exact mul_div_cancel_right₀ c (by linarith)
    obtain ⟨m', hrun, hcount, hsum', h0', havg'⟩ :=
      ih ⟨c, (m.sum + c * ((b.length : ℕ) : ℚ)) / (m.count + ((b.length : ℕ) : ℚ)),
          m.sum + c * ((b.length : ℕ) : ℚ), m.count + ((b.length : ℕ) : ℚ)⟩
        (fun x hx => hne x (List.mem_cons_of_mem b hx))
        (fun x hx => hloss x (List.mem_cons_of_mem b hx))
        (by show (0 : ℚ) ≤ m.count + ((b.length : ℕ) : ℚ); linarith)
        (by show m.sum + c * ((b.length : ℕ) : ℚ) =
              c * (m.count + ((b.length : ℕ) : ℚ)); exact hm1sum)
        (by intro _; show (m.sum + c * ((b.length : ℕ) : ℚ)) /
              (m.count + ((b.length : ℕ) : ℚ)) = c; exact hm1avg)
    refine ⟨m', ?_, ?_, hsum', h0', havg'⟩
    · rw [runEval, hupd]
      exact hrun
    · rw [hcount]
      show _ = m.count + (((b.length + (t.map List.length).sum : ℕ) : ℚ))
      push_cast
      ring

/-- C2 (amended).  Each batch's loss is accumulated into the loss
accumulator weighted by the number of input *sequences* (rows) of the
batch — `inputs.shape[0]`, not the number of input tokens — and the
reported perplexity is `exp` of the resulting weighted average; in
particular, for a validation stream where every batch loss is the same
constant `c` (e.g. a constant per-token loss), the final average is `c`
and the reported perplexity is `exp c`. -/
theorem C2_eval_perplexity :
    ∀ (seqLen : ℕ) (modelLoss : List (List ℤ) → List (List ℤ) → ℚ)
      (batches : List (List (List ℤ))) (c : ℚ),
      batches ≠ [] → (∀ b ∈ batches, b ≠ []) →
      (∀ b ∈ batches, modelLoss (inputRows seqLen b) (targetRows seqLen b) = c) →
      ∃ m, evaluate seqLen modelLoss batches = some m ∧
        m.count = (((batches.map List.length).sum : ℕ) : ℚ) ∧
        m.avg = c ∧
        Real.exp ((m.avg : ℚ) : ℝ) = Real.exp ((c : ℚ) : ℝ) := by
  intro seqLen modelLoss batches c hne hb hloss
  obtain ⟨m, hrun, hcount, _, _, havg⟩ :=
    runEval_invariant seqLen modelLoss c batches meterInit hb hloss
      (by norm_num [meterInit]) (by norm_num [meterInit]) (by norm_num [meterInit])
  have hcount' : m.count = (((batches.map List.length).sum : ℕ) : ℚ) := by
    rw [hcount]; norm_num [meterInit]
  have hpos : 0 < (batches.map List.length).sum := by
    cases batches with
    | nil => exact absurd rfl hne
    | cons b t =>
      have : 0 < b.length := List.length_pos.mpr (hb b (List.mem_cons_self b t))
      simp only [List.map_cons, List.sum_cons]
      omega
  have havg' : m.avg = c := by
    apply havg
    rw [hcount']
    exact_mod_cast hpos
  exact ⟨m, hrun, hcount', havg', by rw [havg']⟩

/-- C2 counterexample: a single batch of 3 sequences of length 3.  The
code's accumulator gains weight 3 (the number of sequences), whereas
accumulating "weighted by the number of input tokens" would gain weight
6, so the two accumulators differ. -/
theorem C2_counterexample :
    evaluate 3 (fun _ _ => (1 : ℚ)) [[[0, 0, 0], [0, 0, 0], [0, 0, 0]]] ≠
      evaluateSpecTokens 3 (fun _ _ => (1 : ℚ)) [[[0, 0, 0], [0, 0, 0], [0, 0, 0]]] := by
  norm_num [evaluate, runEval, evalBatch, evaluateSpecTokens, runEvalSpecTokens,
    evalBatchSpecTokens, AverageMeter.update, inputRows, targetRows, meterInit]

/-- C2 witness: a concrete constant-loss evaluation pass succeeds. -/
theorem C2_witness :
    (evaluate 2 (fun _ _ => (2 : ℚ)) [[[0, 0]]]).isSome = true := by
  obtain ⟨m, hm, -, -, -⟩ :=
    C2_eval_perplexity 2 (fun _ _ => (2 : ℚ)) [[[0, 0]]] 2 (by simp)
      (by intro b hbm; simp at hbm; subst hbm; simp) (by intro b _; rfl)
  rw [hm]
  rfl

/-- The configuration options of `args` consumed by the epoch driver. -/
structure Config where
  batchSize : ℕ
  accumFreq : ℕ
  seqLen : ℕ
  skipScheduler : Bool
  logEveryNSteps : ℕ
  isMaster : Bool
deriving Repr, DecidableEq

/-- The observable state of one `train_one_epoch` run: the three meters
`losses_m`, `batch_time_m`, `data_time_m`, the steps at which the
learning-rate scheduler was invoked, and the steps at which a log
record was emitted. -/
structure EpochState where
  losses : AverageMeter
  batchTime : AverageMeter
  dataTime : AverageMeter
  schedSteps : List ℕ
  logs : List ℕ
deriving Repr, DecidableEq

/-- The state at the start of an epoch: three fresh meters. -/
def epochInit : EpochState := ⟨meterInit, meterInit, meterInit, [], []⟩

/-- The global training step counter
`step = num_batches_per_epoch * epoch + i`. -/
def stepCounter (numBatchesPerEpoch epoch i : ℕ) : ℕ :=
  numBatchesPerEpoch * epoch + i

/-- The logging condition
`is_master(args) and (i % args.log_every_n_steps == 0 or batch_count == num_batches_per_epoch)`. -/
def logCond (cfg : Config) (numBatchesPerEpoch i : ℕ) : Prop :=
  cfg.isMaster = true ∧
    (i % cfg.logEveryNSteps = 0 ∨ i + 1 = numBatchesPerEpoch)

instance logCond.instDecidable (cfg : Config) (numBatchesPerEpoch i : ℕ) :
    Decidable (logCond cfg numBatchesPerEpoch i) := by
  unfold logCond; infer_instance

/-- The scheduler call at the start of the loop body:
`if not args.skip_scheduler: scheduler(step)`. -/
def schedState (cfg : Config) (numBatchesPerEpoch epoch i : ℕ)
    (st : EpochState) : EpochState :=
  if cfg.skipScheduler = true then st
  else { st with schedSteps := st.schedSteps ++ [stepCounter numBatchesPerEpoch epoch i] }

/-- The loop body of `train_one_epoch` after the scheduler call:
`data_time_m.update`, the step executor, `batch_time_m.update`, and on
the logging condition `losses_m.update(total_loss.item(), len(inputs))`
followed by emission and `batch_time_m.reset(); data_time_m.reset()`.
The wall-clock durations are the abstract inputs `dt` and `bt`; a raised
exception returns the state reached so far with `false`. -/
def stepBody (cfg : Config) (lossOf : List (List ℤ) → List (List ℤ) → ℚ)
    (numBatchesPerEpoch : ℕ) (st1 : EpochState) (i : ℕ)
    (texts : List (List ℤ)) (dt bt : ℚ) (stepc : ℕ) : EpochState × Bool :=
  match st1.dataTime.update dt 1 with
  | none => (st1, false)
  | some dtm =>
    if (train_step cfg.batchSize cfg.accumFreq cfg.seqLen lossOf texts).ok = true then
      match st1.batchTime.update bt 1 with
      | none => ({ st1 with dataTime := dtm }, false)
      | some btm =>
        if logCond cfg numBatchesPerEpoch i then
          match st1.losses.update
              ((train_step cfg.batchSize cfg.accumFreq cfg.seqLen lossOf
                texts).totalLoss.getD 0)
              (((inputRows cfg.seqLen texts).length : ℕ) : ℚ) with
          | none => ({ st1 with dataTime := dtm, batchTime := btm }, false)
          | some lm =>
            ({ st1 with
                losses := lm,
                batchTime := AverageMeter.reset btm,
                dataTime := AverageMeter.reset dtm,
                logs := st1.logs ++ [stepc] }, true)
        else
          ({ st1 with dataTime := dtm, batchTime := btm }, true)
    else
      ({ st1 with dataTime := dtm }, false)

/-- One iteration of the `for i, batch in enumerate(dataloader)` loop of
`train_one_epoch`. -/
def processBatch (cfg : Config) (lossOf : List (List ℤ) → List (List ℤ) → ℚ)
    (numBatchesPerEpoch epoch : ℕ) (st : EpochState) (i : ℕ)
    (texts : List (List ℤ)) (dt bt : ℚ) : EpochState × Bool :=
  stepBody cfg lossOf numBatchesPerEpoch
    (schedState cfg numBatchesPerEpoch epoch i st) i texts dt bt
    (stepCounter numBatchesPerEpoch epoch i)

/-- The loop of `train_one_epoch` over the remaining batches, stopping
at the first raised exception.  Each batch carries the token rows and
the abstract data/batch wall-times. -/
def runBatches (cfg : Config) (lossOf : List (List ℤ) → List (List ℤ) → ℚ)
    (numBatchesPerEpoch epoch : ℕ) :
    EpochState → ℕ → List (List (List ℤ) × ℚ × ℚ) → EpochState × Bool
  | st, _, [] => (st, true)
  | st, i, b :: rest =>
    match processBatch cfg lossOf numBatchesPerEpoch epoch st i b.1 b.2.1 b.2.2 with
    | (st', false) => (st', false)
    | (st', true) => runBatches cfg lossOf numBatchesPerEpoch epoch st' (i + 1) rest

/-- One full epoch of the epoch driver: fresh meters, batch index from
0, `num_batches_per_epoch` equal to the length of one pass of the
stream. -/
def train_one_epoch (cfg : Config) (lossOf : List (List ℤ) → List (List ℤ) → ℚ)
    (epoch : ℕ) (batches : List (List (List ℤ) × ℚ × ℚ)) : EpochState × Bool :=
  runBatches cfg lossOf batches.length epoch epochInit 0 batches

lemma schedState_losses (cfg : Config) (numBatchesPerEpoch epoch i : ℕ)
    (st : EpochState) :
    (schedState cfg numBatchesPerEpoch epoch i st).losses = st.losses ∧
    (schedState cfg numBatchesPerEpoch epoch i st).batchTime = st.batchTime ∧
    (schedState cfg numBatchesPerEpoch epoch i st).dataTime = st.dataTime ∧
    (schedState cfg numBatchesPerEpoch epoch i st).logs = st.logs := by
  unfold schedState
  split <;> exact ⟨rfl, rfl, rfl, rfl⟩

lemma stepBody_schedSteps (cfg : Config) (lossOf : List (List ℤ) → List (List ℤ) → ℚ)
    (numBatchesPerEpoch : ℕ) (st1 : EpochState) (i : ℕ)
    (texts : List (List ℤ)) (dt bt : ℚ) (stepc : ℕ) :
    ((stepBody cfg lossOf numBatchesPerEpoch st1 i texts dt bt stepc).1).schedSteps =
      st1.schedSteps := by
  unfold stepBody
  repeat' split
  all_goals rfl

lemma processBatch_schedSteps (cfg : Config)
    (lossOf : List (List ℤ) → List (List ℤ) → ℚ)
    (numBatchesPerEpoch epoch : ℕ) (st : EpochState) (i : ℕ)
    (texts : List (List ℤ)) (dt bt : ℚ) :
    ((processBatch cfg lossOf numBatchesPerEpoch epoch st i texts dt bt).1).schedSteps =
      if cfg.skipScheduler = true then st.schedSteps
      else st.schedSteps ++ [stepCounter numBatchesPerEpoch epoch i] := by
  unfold processBatch
  rw [stepBody_schedSteps]
  unfold schedState
  split <;> rfl

lemma processBatch_concrete :
    processBatch ⟨1, 1, 2, false, 1, true⟩ (fun _ _ => (0 : ℚ)) 1 0 epochInit 0
      [[0, 0]] 0 0 =
    (⟨⟨0, 0, 0, 1⟩, meterInit, meterInit, [0], [0]⟩, true) := by
  norm_num [processBatch, stepBody, schedState, logCond, stepCounter, epochInit,
    meterInit, AverageMeter.update, AverageMeter.reset, train_step, inputRows,
    targetRows]

lemma runBatches_schedSteps_skip (cfg : Config)
    (lossOf : List (List ℤ) → List (List ℤ) → ℚ) (numBatchesPerEpoch epoch : ℕ)
    (hskip : cfg.skipScheduler = true) :
    ∀ (bs : List (List (List ℤ) × ℚ × ℚ)) (st : EpochState) (i : ℕ),
      ((runBatches cfg lossOf numBatchesPerEpoch epoch st i bs).1).schedSteps =
        st.schedSteps := by
  intro bs
  induction bs with
  | nil => intro st i; rfl
  | cons b t ih =>
    intro st i
    unfold runBatches
    rcases hp : processBatch cfg lossOf numBatchesPerEpoch epoch st i b.1 b.2.1 b.2.2
      with ⟨st', ok⟩
    have hsched : st'.schedSteps = st.schedSteps := by
      have h5 := processBatch_schedSteps cfg lossOf numBatchesPerEpoch epoch st i
        b.1 b.2.1 b.2.2
      rw [hp, if_pos hskip] at h5
      exact h5
    cases ok
    · exact hsched
    · show (runBatches cfg lossOf numBatchesPerEpoch epoch st' (i + 1) t).1.schedSteps =
        st.schedSteps
      rw [ih st' (i + 1)]
      exact hsched

lemma runBatches_schedSteps_noskip (cfg : Config)
    (lossOf : List (List ℤ) → List (List ℤ) → ℚ) (numBatchesPerEpoch epoch : ℕ)
    (hskip : cfg.skipScheduler = false) :
    ∀ (bs : List (List (List ℤ) × ℚ × ℚ)) (st : EpochState) (i : ℕ),
      (runBatches cfg lossOf numBatchesPerEpoch epoch st i bs).2 = true →
      ((runBatches cfg lossOf numBatchesPerEpoch epoch st i bs).1).schedSteps =
        st.schedSteps ++
          (List.range bs.length).map fun k => stepCounter numBatchesPerEpoch epoch (i + k) := by
  intro bs
  induction bs with
  | nil => intro st i _; simp [runBatches]
  | cons b t ih =>
    intro st i hok
    unfold runBatches at hok ⊢
    rcases hp : processBatch cfg lossOf numBatchesPerEpoch epoch st i b.1 b.2.1 b.2.2
      with ⟨st', ok⟩
    rw [hp] at hok
    have hsched : st'.schedSteps = st.schedSteps ++ [stepCounter numBatchesPerEpoch epoch i] := by
      have h5 := processBatch_schedSteps cfg lossOf numBatchesPerEpoch epoch st i
        b.1 b.2.1 b.2.2
      rw [hp] at h5
      rw [hskip] at h5
      simpa using h5
    cases ok
    · exact Bool.noConfusion (show false = true from hok)
    · have hok2 : (runBatches cfg lossOf numBatchesPerEpoch epoch st' (i + 1) t).2 = true :=
        hok
      show (runBatches cfg lossOf numBatchesPerEpoch epoch st' (i + 1) t).1.schedSteps = _
      rw [ih st' (i + 1) hok2, hsched, List.append_assoc]
      congr 1
      rw [List.length_cons, List.range_succ_eq_map, List.map_cons, List.map_map,
        List.singleton_append]
      congr 1
      apply List.map_congr_left
      intro k _
      show stepCounter numBatchesPerEpoch epoch (i + 1 + k) =
        stepCounter numBatchesPerEpoch epoch (i + Nat.succ k)
      unfold stepCounter
      omega

/-- C6.  With `skip_scheduler = true`, running the epoch driver never
invokes the learning-rate schedule, no matter the epoch, the batches or
the step count — even if the run aborts mid-epoch.  With
`skip_scheduler = false`, a completed epoch invokes the schedule exactly
once per batch, with the global step counter of that batch. -/
theorem C6_skip_scheduler :
    (∀ (cfg : Config) (lossOf : List (List ℤ) → List (List ℤ) → ℚ) (epoch : ℕ)
       (batches : List (List (List ℤ) × ℚ × ℚ)), cfg.skipScheduler = true →
       ((train_one_epoch cfg lossOf epoch batches).1).schedSteps = []) ∧
    (∀ (cfg : Config) (lossOf : List (List ℤ) → List (List ℤ) → ℚ) (epoch : ℕ)
       (batches : List (List (List ℤ) × ℚ × ℚ)), cfg.skipScheduler = false →
       (train_one_epoch cfg lossOf epoch batches).2 = true →
       ((train_one_epoch cfg lossOf epoch batches).1).schedSteps =
         (List.range batches.length).map fun i => stepCounter batches.length epoch i) := by
  constructor
  · intro cfg lossOf epoch batches hskip
    rw [train_one_epoch,
      runBatches_schedSteps_skip cfg lossOf batches.length epoch hskip batches epochInit 0]
    rfl
  · intro cfg lossOf epoch batches hskip hok
    rw [train_one_epoch] at hok ⊢
    rw [runBatches_schedSteps_noskip cfg lossOf batches.length epoch hskip batches
      epochInit 0 hok]
    simp [epochInit]

/-- C6 witness: a skip-scheduler run and a completed scheduled run. -/
theorem C6_witness :
    ((train_one_epoch ⟨1, 1, 2, true, 1, true⟩ (fun _ _ => (0 : ℚ)) 3
        [([[0, 0]], 0, 0)]).1).schedSteps = [] ∧
    ((train_one_epoch ⟨1, 1, 2, false, 1, true⟩ (fun _ _ => (0 : ℚ)) 0
        [([[0, 0]], 0, 0)]).1).schedSteps = [0] := by
  have hepoch : train_one_epoch ⟨1, 1, 2, false, 1, true⟩ (fun _ _ => (0 : ℚ)) 0
      [([[0, 0]], 0, 0)] =
      (⟨⟨0, 0, 0, 1⟩, meterInit, meterInit, [0], [0]⟩, true) := by
    show runBatches ⟨1, 1, 2, false, 1, true⟩ (fun _ _ => (0 : ℚ)) 1 0 epochInit 0
      [([[0, 0]], 0, 0)] = _
    unfold runBatches
    simp only [processBatch_concrete]
    rfl
  constructor
  · exact C6_skip_scheduler.1 ⟨1, 1, 2, true, 1, true⟩ (fun _ _ => (0 : ℚ)) 3
      [([[0, 0]], 0, 0)] rfl
  · rw [C6_skip_scheduler.2 ⟨1, 1, 2, false, 1, true⟩ (fun _ _ => (0 : ℚ)) 0
      [([[0, 0]], 0, 0)] rfl (by rw [hepoch])]
    rfl

/-- C7.  The training step counter used by the epoch driver at batch `i`
of epoch `e` is `num_batches_per_epoch * e + i`: it is the value handed
to the learning-rate schedule, and it is strictly monotone across
batches of one epoch and across epochs (for batch indices below
`num_batches_per_epoch`). -/
theorem C7_step_counter :
    (∀ (cfg : Config) (lossOf : List (List ℤ) → List (List ℤ) → ℚ)
       (numBatchesPerEpoch epoch : ℕ) (st : EpochState) (i : ℕ)
       (texts : List (List ℤ)) (dt bt : ℚ),
       cfg.skipScheduler = false →
       ((processBatch cfg lossOf numBatchesPerEpoch epoch st i texts dt bt).1).schedSteps =
         st.schedSteps ++ [stepCounter numBatchesPerEpoch epoch i]) ∧
    (∀ numBatchesPerEpoch epoch i,
       stepCounter numBatchesPerEpoch epoch i = numBatchesPerEpoch * epoch + i) ∧
    (∀ numBatchesPerEpoch epoch i j, i < j →
       stepCounter numBatchesPerEpoch epoch i < stepCounter numBatchesPerEpoch epoch j) ∧
    (∀ numBatchesPerEpoch e e2 i j, i < numBatchesPerEpoch → j < numBatchesPerEpoch →
       e < e2 →
       stepCounter numBatchesPerEpoch e i < stepCounter numBatchesPerEpoch e2 j) := by
  refine ⟨?_, fun _ _ _ => rfl, ?_, ?_⟩
  · intro cfg lossOf numBatchesPerEpoch epoch st i texts dt bt hskip
    rw [processBatch_schedSteps, hskip]
    simp
  · intro numBatchesPerEpoch epoch i j hij
    show numBatchesPerEpoch * epoch + i < numBatchesPerEpoch * epoch + j
    omega
  · intro numBatchesPerEpoch e e2 i j hi hj he
    show numBatchesPerEpoch * e + i < numBatchesPerEpoch * e2 + j
    have h1 : numBatchesPerEpoch * (e + 1) ≤ numBatchesPerEpoch * e2 :=
      Nat.mul_le_mul_left numBatchesPerEpoch (by omega)
    rw [Nat.mul_add, Nat.mul_one] at h1
    omega

/-- C7 witness: a concrete scheduler invocation and concrete
monotonicity instances. -/
theorem C7_witness :
    ((processBatch ⟨1, 1, 2, false, 1, true⟩ (fun _ _ => (0 : ℚ)) 1 0 epochInit 0
        [[0, 0]] 0 0).1).schedSteps = [0] ∧
    stepCounter 5 1 2 < stepCounter 5 1 4 ∧
    stepCounter 5 1 4 < stepCounter 5 2 0 := by
  refine ⟨?_, ?_, ?_⟩
  · rw [C7_step_counter.1 ⟨1, 1, 2, false, 1, true⟩ (fun _ _ => (0 : ℚ)) 1 0 epochInit 0
      [[0, 0]] 0 0 rfl]
    rfl
  · exact C7_step_counter.2.2.1 5 1 2 4 (by norm_num)
  · exact C7_step_counter.2.2.2 5 1 2 4 0 (by norm_num) (by norm_num) (by norm_num)

/-- C5.  Whenever a loop iteration of the epoch driver completes and the
logging condition held, the emitted log record is followed immediately
by a reset of the two windowed timing meters (`batch_time_m`,
`data_time_m` become fresh meters), while the loss accumulator is not
reset: it keeps its previous sum and count, extended by the logged
batch.  When the logging condition does not hold, the loss accumulator
is untouched. -/
theorem C5_timing_meters_reset :
    ∀ (cfg : Config) (lossOf : List (List ℤ) → List (List ℤ) → ℚ)
      (numBatchesPerEpoch epoch : ℕ) (st : EpochState) (i : ℕ)
      (texts : List (List ℤ)) (dt bt : ℚ) (st' : EpochState),
      processBatch cfg lossOf numBatchesPerEpoch epoch st i texts dt bt = (st', true) →
      (logCond cfg numBatchesPerEpoch i →
         st'.batchTime = meterInit ∧ st'.dataTime = meterInit ∧
         st'.losses.sum = st.losses.sum +
           ((train_step cfg.batchSize cfg.accumFreq cfg.seqLen lossOf
             texts).totalLoss.getD 0) *
             (((inputRows cfg.seqLen texts).length : ℕ) : ℚ) ∧
         st'.losses.count = st.losses.count +
           (((inputRows cfg.seqLen texts).length : ℕ) : ℚ) ∧
         st'.logs = st.logs ++ [stepCounter numBatchesPerEpoch epoch i]) ∧
      (¬ logCond cfg numBatchesPerEpoch i →
         st'.losses = st.losses ∧ st'.logs = st.logs) := by
  intro cfg lossOf numBatchesPerEpoch epoch st i texts dt bt st' h
  obtain ⟨hsl, hsb, hsd, hslg⟩ := schedState_losses cfg numBatchesPerEpoch epoch i st
  unfold processBatch stepBody at h
  rcases hdtm : (schedState cfg numBatchesPerEpoch epoch i st).dataTime.update dt 1
    with _ | dtm
  · simp only [hdtm] at h
    simp at h
  simp only [hdtm] at h
  by_cases hok : (train_step cfg.batchSize cfg.accumFreq cfg.seqLen lossOf texts).ok = true
  · rw [if_pos hok] at h
    rcases hbtm : (schedState cfg numBatchesPerEpoch epoch i st).batchTime.update bt 1
      with _ | btm
    · simp only [hbtm] at h
      simp at h
    simp only [hbtm] at h
    by_cases hlog : logCond cfg numBatchesPerEpoch i
    · rw [if_pos hlog] at h
      rcases hlm : (schedState cfg numBatchesPerEpoch epoch i st).losses.update
          ((train_step cfg.batchSize cfg.accumFreq cfg.seqLen lossOf
            texts).totalLoss.getD 0)
          (((inputRows cfg.seqLen texts).length : ℕ) : ℚ) with _ | lm
      · simp only [hlm] at h
        simp at h
      simp only [hlm] at h
      simp only [Prod.mk.injEq] at h
      obtain ⟨hst', -⟩ := h
      obtain ⟨-, hlmsum, hlmcount⟩ :=
        AverageMeter.update_some_fields _ _ _ lm hlm
      constructor
      · intro _
        refine ⟨?_, ?_, ?_, ?_, ?_⟩
        · rw [← hst']
          rfl
        · rw [← hst']
          rfl
        · rw [← hst']
          show lm.sum = _
          rw [hlmsum, hsl]
        · rw [← hst']
          show lm.count = _
          rw [hlmcount, hsl]
        · rw [← hst']
          show (schedState cfg numBatchesPerEpoch epoch i st).logs ++
            [stepCounter numBatchesPerEpoch epoch i] = _
          rw [hslg]
      · intro hno
        exact absurd hlog hno
    · rw [if_neg hlog] at h
      simp only [Prod.mk.injEq] at h
      obtain ⟨hst', -⟩ := h
      constructor
      · intro hyes
        exact absurd hyes hlog
      · intro _
        constructor
        · rw [← hst']
          show (schedState cfg numBatchesPerEpoch epoch i st).losses = _
          rw [hsl]
        · rw [← hst']
          show (schedState cfg numBatchesPerEpoch epoch i st).logs = _
          rw [hslg]
  · rw [if_neg hok] at h
    simp at h

/-- C5 witness: a concrete logging iteration. -/
theorem C5_witness :
    (⟨⟨0, 0, 0, 1⟩, meterInit, meterInit, [0], [0]⟩ : EpochState).batchTime =
      meterInit ∧
    (⟨⟨0, 0, 0, 1⟩, meterInit, meterInit, [0], [0]⟩ : EpochState).losses.count =
      epochInit.losses.count + ((1 : ℕ) : ℚ) := by
  have h := C5_timing_meters_reset ⟨1, 1, 2, false, 1, true⟩ (fun _ _ => (0 : ℚ)) 1 0
    epochInit 0 [[0, 0]] 0 0 ⟨⟨0, 0, 0, 1⟩, meterInit, meterInit, [0], [0]⟩
    processBatch_concrete
  obtain ⟨hbt, -, -, hcount, -⟩ := h.1 ⟨rfl, Or.inl rfl⟩
  refine ⟨hbt, ?_⟩
  simpa [inputRows] using hcount

/-- C10 witness: concrete instantiations of all three parts. -/
theorem C10_witness :
    (train_step 6 4 16 (fun _ _ => (0 : ℚ)) ([] : List (List ℤ))).ok =
      (train_step 6 4 16 (fun _ _ => (1 : ℚ))
        (List.replicate 6 (List.replicate 16 (0 : ℤ)))).ok ∧
    (train_step 8 4 16 (fun _ _ => (0 : ℚ))
      (List.replicate 3 (List.replicate 16 (0 : ℤ)))).chunkSizes = [2, 1, 0, 0] :=
  ⟨C10_config_only.1 6 4 16 (fun _ _ => (0 : ℚ)) (fun _ _ => (1 : ℚ)) []
     (List.replicate 6 (List.replicate 16 (0 : ℤ))),
   (C10_config_only.2.2 (fun _ _ => (0 : ℚ))
     (List.replicate 3 (List.replicate 16 (0 : ℤ))) (by simp)).2⟩

end OpenLM
